import Mathlib

/-!
Verification of `pymaid/user_stats.py`.

The module has two functions:

* `get_user_contributions` (lines 40-82): merges three per-user contributor
  count dicts into one table, zero-filling absent users, sorted by node count
  descending.
* `get_time_invested` (lines 84-166): bins each user's action timestamps
  (creation / edition / review, and their concatenation for `total`) into
  fixed-width `interval`-minute bins and reports, per user and per view,
  (number of bins holding at least `minimum_actions` timestamps) * `interval`
  minutes, sorted by `total` descending.

Modelling choices, recorded once here:

* Users are numeric ids (`Nat`); the decoration of a row with
  `user_list.ix[u].last_name` is an external CATMAID lookup and is modelled by
  keeping the id itself.
* Timestamps are whole seconds since the Unix epoch (`Nat`); the spec fixes
  seconds as the minimum resolution.
* `pandas.TimeGrouper(freq='%iMin' % interval)` with a minute tick frequency
  anchors the bin grid at midnight of the first day of the series being
  grouped (`_adjust_dates_anchored` normalises the first timestamp; the
  behaviour later named `origin='start_day'`).  Each groupby here is per user
  and per view, so the origin is midnight of the day of that user's earliest
  timestamp in that view — deterministic, but data-dependent, and coinciding
  with the epoch grid exactly when the bin width divides a day.  Grouping a
  frame by a `TimeGrouper` materialises every bin between the first and the
  last occupied one, the empty bins included (their `count()` is 0).
* `pandas.sort_values(col, ascending=False)` runs `nargsort`: an ascending
  argsort of the key column whose indexer is then reversed wholesale, so rows
  with equal keys come out in reverse of their input order.  numpy's default
  quicksort is unstable in general but degenerates to stable insertion sort on
  the small arrays used in every concrete statement below; the model uses a
  stable ascending insertion sort followed by `reverse`.
* The Python `set` built in `get_user_contributions` and the dicts of
  contributor counts are modelled as first-occurrence deduplication and
  association-list lookup respectively.
-/

namespace UserStats

/-- CATMAID numeric user id. -/
abbrev UserId := Nat

/-- Seconds since the Unix epoch. -/
abbrev Timestamp := Nat

/-- One (user, timestamp) action record, one row of the `user`/`timestamp`
frames built at lines 131-139 of the source. -/
abbrev Record := UserId × Timestamp

/-- Width of one time bin in seconds: `interval` minutes
(source line 115: `bin_width = '%iMin' % interval`). -/
def binWidth (interval : Nat) : Nat := 60 * interval

/-- Spec-side: the epoch-anchored grid index `⌊t / width⌋` — the single shared
origin the spec postulates.  The program's binner (see `binOfIn`) agrees with
this grid exactly when the bin width divides a day. -/
def binOf (interval : Nat) (t : Timestamp) : Nat := t / binWidth interval

/-- Minimum of a list of naturals (`DatetimeIndex.min()`); 0 on `[]`,
a case the source never reaches because empty frames are skipped. -/
def listMin : List Nat → Nat
  | [] => 0
  | [t] => t
  | t :: u :: ts => if t ≤ listMin (u :: ts) then t else listMin (u :: ts)

/-- Maximum of a list of naturals (`DatetimeIndex.max()`); 0 on `[]`. -/
def listMax : List Nat → Nat
  | [] => 0
  | [t] => t
  | t :: u :: ts => if t ≤ listMax (u :: ts) then listMax (u :: ts) else t

/-- Midnight (00:00) of the day containing `t`, in seconds since the epoch. -/
def dayStart (t : Timestamp) : Nat := t / 86400 * 86400

/-- The origin of the binner grid of one grouped series: midnight of the day
of the series' earliest timestamp (pandas anchors tick-frequency bins at the
start of the grouped series' first day).  Per user and per view, hence
data-dependent. -/
def anchor (ts : List Timestamp) : Nat := dayStart (listMin ts)

/-- The bin index of timestamp `t` in the binner of the series `ts`: the
offset from the series' own anchor, floored to bin widths. -/
def binOfIn (interval : Nat) (ts : List Timestamp) (t : Timestamp) : Nat :=
  (t - anchor ts) / binWidth interval

/-- Number of the series' timestamps falling into bin `b` of its own binner
(one entry of `groupby(TimeGrouper).count()`). -/
def countBin (interval : Nat) (ts : List Timestamp) (b : Nat) : Nat :=
  ts.countP (fun t => binOfIn interval ts t == b)

/-- The contiguous bins of the pandas binner: from the bin of the earliest
timestamp to the bin of the latest, the empty bins in between included. -/
def spanBins (interval : Nat) (ts : List Timestamp) : List Nat :=
  List.range' (binOfIn interval ts (listMin ts))
    (binOfIn interval ts (listMax ts) + 1 - binOfIn interval ts (listMin ts))

/-- Minutes attributed to one user in one view, lines 151-162:
`sum(groupby(TimeGrouper(freq)).count().values >= minimum_actions)[0] * interval`,
the number of binner bins holding at least `minimum_actions` of the user's
timestamps, times `interval`.  A user with no timestamps in a view keeps the
zero the `stats` dict was initialised with (lines 144-149). -/
def minutesInvested (interval minimum_actions : Nat) (ts : List Timestamp) : Nat :=
  if ts.isEmpty then 0
  else ((spanBins interval ts).countP
    (fun b => decide (minimum_actions ≤ countBin interval ts b))) * interval

/-- Timestamps of user `u` in one view (`df[df.user == u].timestamp`). -/
def tsOf (view : List Record) (u : UserId) : List Timestamp :=
  (view.filter (fun p => p.1 == u)).map (fun p => p.2)

/-- First-occurrence deduplication with an accumulator of already-seen ids
(`Series.unique()` keeps the order of first appearance). -/
def uniqueAux (seen : List UserId) : List UserId → List UserId
  | [] => []
  | x :: xs => if x ∈ seen then uniqueAux seen xs else x :: uniqueAux (x :: seen) xs

/-- `pandas.Series.unique`: distinct values in order of first appearance. -/
def unique (l : List UserId) : List UserId := uniqueAux [] l

/-- One output row of `get_time_invested` (line 166).  Values are minutes. -/
structure TimeRow where
  user : UserId
  total : Nat
  creation : Nat
  edition : Nat
  review : Nat
deriving DecidableEq

/-- Stable ascending insertion of one element by key: the element is placed
before the first element whose key is not strictly smaller, so elements with
equal keys keep their original relative order. -/
def insertKeyAsc {α : Type} (key : α → Nat) (x : α) : List α → List α
  | [] => [x]
  | y :: ys => if key y < key x then y :: insertKeyAsc key x ys else x :: y :: ys

/-- Stable ascending insertion sort by key. -/
def sortKeyAsc {α : Type} (key : α → Nat) : List α → List α
  | [] => []
  | x :: xs => insertKeyAsc key x (sortKeyAsc key xs)

/-- `sort_values(col, ascending=False)`: pandas `nargsort` argsorts the key
column ascending and reverses the indexer wholesale, so rows with equal keys
appear in reverse of their input order. -/
def sortValuesDesc {α : Type} (key : α → Nat) (l : List α) : List α :=
  (sortKeyAsc key l).reverse

/-- The row assembled for user `u` at line 166: `total` over the concatenation
of the three views (line 142), the three per-view figures zero-filled. -/
def mkRow (creation edition review : List Record)
    (interval minimum_actions : Nat) (u : UserId) : TimeRow :=
  { user := u
    total := minutesInvested interval minimum_actions (tsOf (creation ++ edition ++ review) u)
    creation := minutesInvested interval minimum_actions (tsOf creation u)
    edition := minutesInvested interval minimum_actions (tsOf edition u)
    review := minutesInvested interval minimum_actions (tsOf review u) }

/-- `get_time_invested`, lines 84-166.  Inputs are the three `(user, timestamp)`
tables built at lines 131-139; the upstream CATMAID fetches that produce them
are external collaborators.  One row per user of
`all_timestamps.user.unique()`, sorted by `total` descending.  The source
performs no validation of `interval` or `minimum_actions`. -/
def get_time_invested (creation edition review : List Record)
    (interval minimum_actions : Nat) : List TimeRow :=
  sortValuesDesc (fun r => r.total)
    ((unique ((creation ++ edition ++ review).map (fun p => p.1))).map
      (mkRow creation edition review interval minimum_actions))

/-- One output row of `get_user_contributions` (line 82). -/
structure ContribRow where
  user : UserId
  nodes : Nat
  presynapses : Nat
  postsynapses : Nat
deriving DecidableEq

/-- The contribution row of one user: counts are dict lookups,
zero-initialised for every user of the union (lines 69-80). -/
def mkContribRow
    (node_contributors pre_contributors post_contributors : List (UserId × Nat))
    (u : UserId) : ContribRow :=
  { user := u
    nodes := (node_contributors.lookup u).getD 0
    presynapses := (pre_contributors.lookup u).getD 0
    postsynapses := (post_contributors.lookup u).getD 0 }

/-- `get_user_contributions`, lines 40-82.  The three contributor dicts are
association lists; `set(node.keys() + pre.keys() + post.keys())` is modelled
as first-occurrence deduplication of the concatenated key lists; rows are
sorted by `nodes` descending (line 82). -/
def get_user_contributions
    (node_contributors pre_contributors post_contributors : List (UserId × Nat)) :
    List ContribRow :=
  sortValuesDesc (fun r => r.nodes)
    ((unique ((node_contributors.map (fun p => p.1))
        ++ (pre_contributors.map (fun p => p.1))
        ++ (post_contributors.map (fun p => p.1)))).map
      (mkContribRow node_contributors pre_contributors post_contributors))

/-- Spec-side reading of step 3 of the algorithm: the distinct bins of the
user's binner containing at least `minimum_actions` of the user's
timestamps. -/
def activeBins (interval minimum_actions : Nat) (ts : List Timestamp) : List Nat :=
  ((ts.map (binOfIn interval ts)).dedup).filter
    (fun b => decide (minimum_actions ≤ countBin interval ts b))

/-- The absolute left boundary, in seconds since the epoch, of the binner bin
of the series `ts` covering timestamp `t`: the first bin `b` of the span whose
window `[anchor + b*w, anchor + (b+1)*w)` contains `t`.  Comparing this value
across users tells whether their bins align. -/
def assignedBinStart (interval : Nat) (ts : List Timestamp) (t : Timestamp) : Option Nat :=
  ((spanBins interval ts).find?
    (fun b => decide (anchor ts + b * binWidth interval ≤ t) &&
      decide (t < anchor ts + (b + 1) * binWidth interval))).map
    (fun b => anchor ts + b * binWidth interval)

/-! ### Basic lemmas about the list utilities -/

lemma listMin_le : ∀ {l : List Nat} {x : Nat}, x ∈ l → listMin l ≤ x
  | [t], x, h => by
      rcases List.mem_singleton.mp h with rfl
      simp [listMin]
  | t :: u :: ts, x, h => by
      rcases List.mem_cons.mp h with rfl | h2
      · simp only [listMin]
        by_cases hle : x ≤ listMin (u :: ts)
        · simp [hle]
        · simp only [if_neg hle]
          exact Nat.le_of_not_le hle
      · simp only [listMin]
        by_cases hle : t ≤ listMin (u :: ts)
        · simp only [if_pos hle]
          exact le_trans hle (listMin_le h2)
        · simp only [if_neg hle]
          exact listMin_le h2

lemma le_listMax : ∀ {l : List Nat} {x : Nat}, x ∈ l → x ≤ listMax l
  | [t], x, h => by
      rcases List.mem_singleton.mp h with rfl
      simp [listMax]
  | t :: u :: ts, x, h => by
      rcases List.mem_cons.mp h with rfl | h2
      · simp only [listMax]
        by_cases hle : x ≤ listMax (u :: ts)
        · simp [hle]
        · simp [hle]
      · simp only [listMax]
        by_cases hle : t ≤ listMax (u :: ts)
        · simp only [if_pos hle]
          exact le_listMax h2
        · simp only [if_neg hle]
          exact le_trans (le_listMax h2) (Nat.le_of_not_le hle)

lemma listMin_mem : ∀ {l : List Nat}, l ≠ [] → listMin l ∈ l
  | [t], _ => by simp [listMin]
  | t :: u :: ts, _ => by
      simp only [listMin]
      by_cases h : t ≤ listMin (u :: ts)
      · simp [h]
      · simp only [if_neg h]
        exact List.mem_cons_of_mem _ (listMin_mem (by simp))

/-! Plain arithmetic shuffles of truncated subtraction, kept as standalone
lemmas over bare naturals. -/

lemma nat_sub_shift {a1 a2 t e : Nat} (h1 : a2 ≤ a1) (h2 : a1 - a2 = e)
    (h3 : a1 ≤ t) : t - a2 = (t - a1) + e := by
  omega

lemma nat_le_sub_of_add_le {a q t : Nat} (h : a + q ≤ t) : q ≤ t - a := by
  omega

lemma nat_sub_lt_of_lt_add {a z t : Nat} (ha : a ≤ t) (h : t < a + z) :
    t - a < z := by
  omega

lemma nat_add_le_of_le_sub {a q t : Nat} (ha : a ≤ t) (h : q ≤ t - a) :
    a + q ≤ t := by
  omega

lemma nat_lt_add_of_sub_lt {a z t : Nat} (ha : a ≤ t) (h : t - a < z) :
    t < a + z := by
  omega

lemma dayStart_le (t : Timestamp) : dayStart t ≤ t :=
  Nat.div_mul_le_self t 86400

lemma dayStart_mono {t s : Timestamp} (h : t ≤ s) : dayStart t ≤ dayStart s :=
  Nat.mul_le_mul_right _ (Nat.div_le_div_right h)

lemma dvd_dayStart {w : Nat} (hw : w ∣ 86400) (t : Timestamp) : w ∣ dayStart t :=
  hw.trans (dvd_mul_left 86400 (t / 86400))

lemma anchor_le_of_mem {ts : List Timestamp} {t : Timestamp} (ht : t ∈ ts) :
    anchor ts ≤ t :=
  le_trans (dayStart_le _) (listMin_le ht)

/-- A bin width of a whole number of minutes divides a day exactly when the
interval divides 1440. -/
lemma binWidth_dvd_day {interval : Nat} (hd : interval ∣ 1440) :
    binWidth interval ∣ 86400 := by
  rcases hd with ⟨k, hk⟩
  refine ⟨k, ?_⟩
  rw [binWidth, Nat.mul_assoc]
  omega

lemma mem_uniqueAux {x : UserId} :
    ∀ {l seen : List UserId}, x ∈ uniqueAux seen l ↔ x ∈ l ∧ x ∉ seen
  | [], seen => by simp [uniqueAux]
  | y :: ys, seen => by
      by_cases hy : y ∈ seen
      · rw [uniqueAux, if_pos hy, mem_uniqueAux]
        constructor
        · exact fun h => ⟨List.mem_cons_of_mem _ h.1, h.2⟩
        · rintro ⟨h1, h2⟩
          rcases List.mem_cons.mp h1 with rfl | h3
          · exact absurd hy h2
          · exact ⟨h3, h2⟩
      · rw [uniqueAux, if_neg hy]
        constructor
        · intro h
          rcases List.mem_cons.mp h with rfl | h1
          · exact ⟨List.mem_cons_self _ _, hy⟩
          · rcases mem_uniqueAux.mp h1 with ⟨ha, hb⟩
            refine ⟨List.mem_cons_of_mem _ ha, ?_⟩
            intro hc
            exact hb (List.mem_cons_of_mem _ hc)
        · rintro ⟨h1, h2⟩
          rcases List.mem_cons.mp h1 with rfl | h3
          · exact List.mem_cons_self _ _
          · by_cases hxy : x = y
            · exact hxy ▸ List.mem_cons_self _ _
            · refine List.mem_cons_of_mem _ (mem_uniqueAux.mpr ⟨h3, ?_⟩)
              intro hc
              rcases List.mem_cons.mp hc with h4 | h5
              · exact hxy h4
              · exact h2 h5

lemma uniqueAux_nodup : ∀ (l seen : List UserId), (uniqueAux seen l).Nodup
  | [], seen => by simp [uniqueAux]
  | y :: ys, seen => by
      by_cases hy : y ∈ seen
      · rw [uniqueAux, if_pos hy]
        exact uniqueAux_nodup ys seen
      · rw [uniqueAux, if_neg hy]
        refine List.nodup_cons.mpr ⟨?_, uniqueAux_nodup ys (y :: seen)⟩
        intro hc
        exact (mem_uniqueAux.mp hc).2 (List.mem_cons_self _ _)

lemma mem_unique {x : UserId} {l : List UserId} : x ∈ unique l ↔ x ∈ l := by
  rw [unique, mem_uniqueAux]
  simp

lemma unique_nodup (l : List UserId) : (unique l).Nodup := uniqueAux_nodup l []

lemma tsOf_append (v1 v2 : List Record) (u : UserId) :
    tsOf (v1 ++ v2) u = tsOf v1 u ++ tsOf v2 u := by
  simp [tsOf, List.filter_append]

lemma tsOf_eq_nil_of_not_mem {view : List Record} {u : UserId}
    (h : u ∉ view.map (fun p => p.1)) : tsOf view u = [] := by
  rw [tsOf, List.filter_eq_nil_iff.mpr, List.map_nil]
  intro p hp
  simp only [beq_iff_eq]
  intro hc
  exact h (List.mem_map.mpr ⟨p, hp, hc⟩)

/-! ### The model of pandas sort_values -/

lemma insertKeyAsc_perm {α : Type} (key : α → Nat) (x : α) :
    ∀ (l : List α), List.Perm (insertKeyAsc key x l) (x :: l)
  | [] => List.Perm.refl _
  | y :: ys => by
      rw [insertKeyAsc]
      by_cases h : key y < key x
      · rw [if_pos h]
        exact List.Perm.trans
          (List.Perm.cons y (insertKeyAsc_perm key x ys)) (List.Perm.swap x y ys)
      · rw [if_neg h]

lemma sortKeyAsc_perm {α : Type} (key : α → Nat) :
    ∀ (l : List α), List.Perm (sortKeyAsc key l) l
  | [] => List.Perm.refl _
  | x :: xs => by
      rw [sortKeyAsc]
      exact List.Perm.trans
        (insertKeyAsc_perm key x _) (List.Perm.cons x (sortKeyAsc_perm key xs))

lemma sortValuesDesc_perm {α : Type} (key : α → Nat) (l : List α) :
    List.Perm (sortValuesDesc key l) l :=
  (List.reverse_perm _).trans (sortKeyAsc_perm key l)

lemma mem_sortValuesDesc {α : Type} {key : α → Nat} {l : List α} {a : α} :
    a ∈ sortValuesDesc key l ↔ a ∈ l :=
  (sortValuesDesc_perm key l).mem_iff

lemma insertKeyAsc_pairwise {α : Type} (key : α → Nat) (x : α) :
    ∀ {l : List α}, l.Pairwise (fun a b => key a ≤ key b) →
      (insertKeyAsc key x l).Pairwise (fun a b => key a ≤ key b)
  | [], _ => List.pairwise_singleton _ _
  | y :: ys, h => by
      rw [insertKeyAsc]
      rcases List.pairwise_cons.mp h with ⟨hy, hys⟩
      by_cases hlt : key y < key x
      · rw [if_pos hlt]
        refine List.pairwise_cons.mpr ⟨?_, insertKeyAsc_pairwise key x hys⟩
        intro z hz
        rcases List.mem_cons.mp ((insertKeyAsc_perm key x ys).mem_iff.mp hz) with rfl | h2
        · exact Nat.le_of_lt hlt
        · exact hy z h2
      · rw [if_neg hlt]
        refine List.pairwise_cons.mpr ⟨?_, h⟩
        intro z hz
        rcases List.mem_cons.mp hz with rfl | h2
        · exact Nat.le_of_not_lt hlt
        · exact le_trans (Nat.le_of_not_lt hlt) (hy z h2)

lemma sortKeyAsc_pairwise {α : Type} (key : α → Nat) :
    ∀ (l : List α), (sortKeyAsc key l).Pairwise (fun a b => key a ≤ key b)
  | [] => List.Pairwise.nil
  | x :: xs => insertKeyAsc_pairwise key x (sortKeyAsc_pairwise key xs)

lemma sortValuesDesc_pairwise {α : Type} (key : α → Nat) (l : List α) :
    (sortValuesDesc key l).Pairwise (fun a b => key b ≤ key a) := by
  rw [sortValuesDesc]
  exact (List.pairwise_reverse).mpr (sortKeyAsc_pairwise key l)

/-! ### Rows of the time-invested report -/

lemma mem_get_time_invested {row : TimeRow} {c e r : List Record} {i m : Nat} :
    row ∈ get_time_invested c e r i m ↔
      ∃ u ∈ unique ((c ++ e ++ r).map (fun p => p.1)), row = mkRow c e r i m u := by
  rw [get_time_invested, mem_sortValuesDesc, List.mem_map]
  constructor
  · rintro ⟨u, hu, rfl⟩
    exact ⟨u, hu, rfl⟩
  · rintro ⟨u, hu, rfl⟩
    exact ⟨u, hu, rfl⟩

lemma user_mkRow (c e r : List Record) (i m : Nat) (u : UserId) :
    (mkRow c e r i m u).user = u := rfl

/-! ### Binning lemmas -/

lemma binOfIn_mem_spanBins {interval : Nat} {ts : List Timestamp} {t : Timestamp}
    (ht : t ∈ ts) : binOfIn interval ts t ∈ spanBins interval ts := by
  have h1 : binOfIn interval ts (listMin ts) ≤ binOfIn interval ts t :=
    Nat.div_le_div_right (Nat.sub_le_sub_right (listMin_le ht) _)
  have h2 : binOfIn interval ts t ≤ binOfIn interval ts (listMax ts) :=
    Nat.div_le_div_right (Nat.sub_le_sub_right (le_listMax ht) _)
  rw [spanBins, List.mem_range'_1]
  omega

lemma countBin_pos_iff {interval : Nat} {ts : List Timestamp} {b : Nat} :
    0 < countBin interval ts b ↔ ∃ t ∈ ts, binOfIn interval ts t = b := by
  rw [countBin, List.countP_pos_iff]
  simp

lemma mem_activeBins {i m : Nat} {ts : List Timestamp} {b : Nat} :
    b ∈ activeBins i m ts ↔ (∃ t ∈ ts, binOfIn i ts t = b) ∧ m ≤ countBin i ts b := by
  rw [activeBins, List.mem_filter, List.mem_dedup, List.mem_map]
  simp

lemma activeBins_nodup (i m : Nat) (ts : List Timestamp) : (activeBins i m ts).Nodup :=
  (List.nodup_dedup _).filter _

/-- The refinement linking the code's binner count (lines 151-162: every bin of
the span, the empty ones included, tested against the threshold) to the spec's
reading (the distinct bins holding at least `minimum_actions` timestamps):
they agree whenever `minimum_actions` is at least 1, because an active bin is
then occupied and every occupied bin lies in the span. -/
lemma minutesInvested_eq_activeBins (i : Nat) {m : Nat} (hm : 1 ≤ m) (ts : List Timestamp) :
    minutesInvested i m ts = (activeBins i m ts).length * i := by
  cases ts with
  | nil => simp [minutesInvested, activeBins]
  | cons t0 rest =>
    rw [minutesInvested, if_neg (by simp)]
    congr 1
    rw [List.countP_eq_length_filter]
    apply List.Perm.length_eq
    apply (List.perm_ext_iff_of_nodup
      ((List.nodup_range' _ _).filter _) (activeBins_nodup i m (t0 :: rest))).mpr
    intro b
    rw [List.mem_filter, mem_activeBins]
    constructor
    · rintro ⟨_, hp⟩
      have hp' : m ≤ countBin i (t0 :: rest) b := of_decide_eq_true hp
      have hpos : 0 < countBin i (t0 :: rest) b := lt_of_lt_of_le hm hp'
      exact ⟨countBin_pos_iff.mp hpos, hp'⟩
    · rintro ⟨⟨t, ht, rfl⟩, hp⟩
      exact ⟨binOfIn_mem_spanBins ht, decide_eq_true hp⟩

/-- With threshold 1 the active bins are exactly the occupied bins. -/
lemma activeBins_one_length (i : Nat) (ts : List Timestamp) :
    (activeBins i 1 ts).length = ((ts.map (binOfIn i ts)).dedup).length := by
  rw [activeBins]
  congr 1
  apply List.filter_eq_self.mpr
  intro b hb
  rcases List.mem_map.mp (List.mem_dedup.mp hb) with ⟨t, ht, rfl⟩
  apply decide_eq_true
  exact countBin_pos_iff.mpr ⟨t, ht, rfl⟩

/-- Mapping a list through a function cannot increase the number of distinct
values. -/
lemma dedup_length_map_le (f : Nat → Nat) (l : List Nat) :
    ((l.map f).dedup).length ≤ (l.dedup).length := by
  rw [← List.card_toFinset, ← List.card_toFinset]
  have himg : (l.map f).toFinset = l.toFinset.image f := by
    ext b
    simp [List.mem_toFinset, Finset.mem_image, List.mem_map]
  rw [himg]
  exact Finset.card_image_le

/-- Active bins are monotone along a constant shift of the grid: when the
larger series' binner places every timestamp of the smaller series exactly
`d` bins higher, the smaller series' active bins inject (via `+ d`) into the
larger series' active bins. -/
lemma activeBins_length_mono_shifted {i m d : Nat} {ts1 ts2 : List Timestamp}
    (hbin : ∀ t ∈ ts1, binOfIn i ts2 t = binOfIn i ts1 t + d)
    (hsub : ts1.Sublist ts2) :
    (activeBins i m ts1).length ≤ (activeBins i m ts2).length := by
  have hcnt : ∀ b, countBin i ts1 b ≤ countBin i ts2 (b + d) := by
    intro b
    have he : countBin i ts1 b = ts1.countP (fun t => binOfIn i ts2 t == b + d) := by
      rw [countBin]
      apply List.countP_congr
      intro t ht
      rw [hbin t ht]
      constructor
      · intro hx
        exact beq_iff_eq.mpr (by rw [beq_iff_eq.mp hx])
      · intro hx
        exact beq_iff_eq.mpr (Nat.add_right_cancel (beq_iff_eq.mp hx))
    calc countBin i ts1 b
        = ts1.countP (fun t => binOfIn i ts2 t == b + d) := he
      _ ≤ ts2.countP (fun t => binOfIn i ts2 t == b + d) := hsub.countP_le _
      _ = countBin i ts2 (b + d) := rfl
  rw [← List.toFinset_card_of_nodup (activeBins_nodup i m ts1),
    ← List.toFinset_card_of_nodup (activeBins_nodup i m ts2)]
  have himg : (activeBins i m ts1).toFinset.image (fun b => b + d)
      ⊆ (activeBins i m ts2).toFinset := by
    intro b hb
    rcases Finset.mem_image.mp hb with ⟨b0, hb0, rfl⟩
    rw [List.mem_toFinset, mem_activeBins] at hb0 ⊢
    rcases hb0 with ⟨⟨t, ht, rfl⟩, hcount⟩
    exact ⟨⟨t, hsub.subset ht, hbin t ht⟩, le_trans hcount (hcnt _)⟩
  calc (activeBins i m ts1).toFinset.card
      = ((activeBins i m ts1).toFinset.image (fun b => b + d)).card :=
        (Finset.card_image_of_injective _ (fun a b h => Nat.add_right_cancel h)).symm
    _ ≤ (activeBins i m ts2).toFinset.card := Finset.card_le_card himg

/-- When the bin width divides a day, the first-day anchors of a series and
of any superseries differ by a whole number of bins, so a sub-series can only
have fewer active bins: its minutes are dominated.  Without the divisibility
the two anchors need not be commensurable and the domination fails (see the
counterexample to the total-versus-category claim). -/
lemma minutesInvested_le_of_sublist {i m : Nat} (hm : 1 ≤ m)
    (hd : binWidth i ∣ 86400) {ts1 ts2 : List Timestamp}
    (hsub : ts1.Sublist ts2) :
    minutesInvested i m ts1 ≤ minutesInvested i m ts2 := by
  rcases eq_or_ne ts1 [] with rfl | hne
  · rw [show minutesInvested i m [] = 0 from rfl]
    exact Nat.zero_le _
  have hw : 0 < binWidth i := by
    rcases Nat.eq_zero_or_pos (binWidth i) with h0 | h
    · rw [h0] at hd
      exact absurd (Nat.eq_zero_of_zero_dvd hd) (by omega)
    · exact h
  have hA2le : anchor ts2 ≤ anchor ts1 :=
    dayStart_mono (listMin_le (hsub.subset (listMin_mem hne)))
  have hdvd : binWidth i ∣ anchor ts1 - anchor ts2 :=
    Nat.dvd_sub' (dvd_dayStart hd (listMin ts1)) (dvd_dayStart hd (listMin ts2))
  obtain ⟨d, hdeq⟩ := hdvd
  have hbin : ∀ t ∈ ts1, binOfIn i ts2 t = binOfIn i ts1 t + d := by
    intro t ht
    have hA1t : anchor ts1 ≤ t := anchor_le_of_mem ht
    have hsplit : t - anchor ts2 = (t - anchor ts1) + binWidth i * d :=
      nat_sub_shift hA2le hdeq hA1t
    rw [binOfIn, binOfIn, hsplit, Nat.add_mul_div_left _ _ hw]
  rw [minutesInvested_eq_activeBins i hm, minutesInvested_eq_activeBins i hm]
  exact Nat.mul_le_mul_right i (activeBins_length_mono_shifted hbin hsub)

/-- Coarsening the binning by an integer factor cannot increase the number of
occupied bins, so at threshold 1 the per-bin-count figures satisfy
`minutes_{i2} / i2 ≤ minutes_{i1} / i1` in cross-multiplied form. -/
lemma minutesInvested_dvd_le (i1 i2 : Nat) (hd : i1 ∣ i2) (ts : List Timestamp) :
    minutesInvested i2 1 ts * i1 ≤ minutesInvested i1 1 ts * i2 := by
  rw [minutesInvested_eq_activeBins i1 (Nat.le_refl 1),
    minutesInvested_eq_activeBins i2 (Nat.le_refl 1),
    activeBins_one_length, activeBins_one_length]
  rcases hd with ⟨k, rfl⟩
  have hbin : ∀ t, binOfIn (i1 * k) ts t = binOfIn i1 ts t / k := by
    intro t
    rw [binOfIn, binOfIn, binWidth, binWidth, ← Nat.mul_assoc, ← Nat.div_div_eq_div_mul]
  have hmap : ts.map (binOfIn (i1 * k) ts)
      = (ts.map (binOfIn i1 ts)).map (fun b => b / k) := by
    rw [List.map_map]
    apply List.map_congr_left
    intro t _
    exact hbin t
  have hle : ((ts.map (binOfIn (i1 * k) ts)).dedup).length
      ≤ ((ts.map (binOfIn i1 ts)).dedup).length := by
    rw [hmap]
    exact dedup_length_map_le _ _
  calc ((ts.map (binOfIn (i1 * k) ts)).dedup).length * (i1 * k) * i1
      = ((ts.map (binOfIn (i1 * k) ts)).dedup).length * (i1 * k * i1) := by ring
    _ ≤ ((ts.map (binOfIn i1 ts)).dedup).length * (i1 * k * i1) :=
        Nat.mul_le_mul_right _ hle
    _ = ((ts.map (binOfIn i1 ts)).dedup).length * i1 * (i1 * k) := by ring

lemma lookup_eq_none_of_not_mem {u : UserId} :
    ∀ {l : List (UserId × Nat)}, u ∉ l.map (fun p => p.1) → l.lookup u = none
  | [], _ => rfl
  | (k, v) :: es, h => by
      have hk : (u == k) = false := by
        apply beq_eq_false_iff_ne.mpr
        intro hc
        exact h (List.mem_map.mpr ⟨(k, v), List.mem_cons_self _ _, hc.symm⟩)
      simp only [List.lookup, hk]
      apply lookup_eq_none_of_not_mem
      intro hc
      rcases List.mem_map.mp hc with ⟨p, hp, hfst⟩
      exact h (List.mem_map.mpr ⟨p, List.mem_cons_of_mem _ hp, hfst⟩)

lemma mem_get_user_contributions {row : ContribRow}
    {node pre post : List (UserId × Nat)} :
    row ∈ get_user_contributions node pre post ↔
      ∃ u ∈ unique ((node.map (fun p => p.1)) ++ (pre.map (fun p => p.1))
        ++ (post.map (fun p => p.1))), row = mkContribRow node pre post u := by
  rw [get_user_contributions, mem_sortValuesDesc, List.mem_map]
  constructor
  · rintro ⟨u, hu, rfl⟩
    exact ⟨u, hu, rfl⟩
  · rintro ⟨u, hu, rfl⟩
    exact ⟨u, hu, rfl⟩

/-- The first list element satisfying a predicate that characterises a unique
value is that value. -/
lemma find?_eq_some_of_unique {p : Nat → Bool} {b : Nat} :
    ∀ {l : List Nat}, (∀ x, p x = true ↔ x = b) → b ∈ l → l.find? p = some b
  | x :: xs, hp, hmem => by
      by_cases hx : p x = true
      · rw [List.find?_cons_of_pos _ hx, (hp x).mp hx]
      · have hbx : b ≠ x := fun hc => hx (hc ▸ (hp b).mpr rfl)
        have hb' : b ∈ xs := by
          rcases List.mem_cons.mp hmem with rfl | h2
          · exact absurd rfl hbx
          · exact h2
        rw [List.find?_cons_of_neg _ hx]
        exact find?_eq_some_of_unique hp hb'

/-! ### Claim theorems -/

/-- C1: for every user and every view (creation, edition, review, total), the
minutes reported by `get_time_invested` equal the number of `interval`-minute
bins containing at least `minimum_actions` of that user's timestamps in that
view, multiplied by `interval`.  The witness instantiates the spec's example:
creation timestamps at minutes 0, 0.5 and 2 (seconds 0, 30, 120) with
interval 1 and minimum_actions 1 give creation = 2. -/
theorem time_invested_eq_active_bins_times_interval
    (c e r : List Record) (i m : Nat) (hm : 1 ≤ m) (row : TimeRow)
    (hrow : row ∈ get_time_invested c e r i m) :
    row.total = (activeBins i m (tsOf (c ++ e ++ r) row.user)).length * i ∧
    row.creation = (activeBins i m (tsOf c row.user)).length * i ∧
    row.edition = (activeBins i m (tsOf e row.user)).length * i ∧
    row.review = (activeBins i m (tsOf r row.user)).length * i := by
  rcases mem_get_time_invested.mp hrow with ⟨u, _, rfl⟩
  exact ⟨minutesInvested_eq_activeBins i hm _, minutesInvested_eq_activeBins i hm _,
    minutesInvested_eq_activeBins i hm _, minutesInvested_eq_activeBins i hm _⟩

/-- Witness for C1 at the spec's example: interval 1, minimum_actions 1, user 7
acting at seconds 0, 30 and 120; the report row for user 7 carries
creation = 2 active bins * 1 minute = 2. -/
theorem time_invested_eq_active_bins_times_interval_witness :
    1 ≤ 1 ∧
    (⟨7, 2, 2, 0, 0⟩ : TimeRow) ∈ get_time_invested [(7, 0), (7, 30), (7, 120)] [] [] 1 1 ∧
    (⟨7, 2, 2, 0, 0⟩ : TimeRow).creation
      = (activeBins 1 1 (tsOf [(7, 0), (7, 30), (7, 120)]
          (⟨7, 2, 2, 0, 0⟩ : TimeRow).user)).length * 1 ∧
    (⟨7, 2, 2, 0, 0⟩ : TimeRow).creation = 2 :=
  ⟨Nat.le_refl 1, by decide,
    (time_invested_eq_active_bins_times_interval [(7, 0), (7, 30), (7, 120)] [] [] 1 1
      (Nat.le_refl 1) ⟨7, 2, 2, 0, 0⟩ (by decide)).2.1,
    by decide⟩

/-- C2 counterexample: no `InvalidParameter` (nor any validation of `interval`
and `minimum_actions`) exists anywhere in the source.  With
minimum_actions = 0 (a non-positive value) and a perfectly valid interval = 1,
the call silently runs the full aggregation and returns a report — the empty
bin [60, 120) of user 1 is even counted as active, giving 3 minutes for
timestamps at seconds 0, 30 and 120 — instead of raising before aggregating. -/
theorem no_parameter_validation :
    get_time_invested [(1, 0), (1, 30), (1, 120)] [] [] 1 0 = [⟨1, 3, 3, 0, 0⟩] := by
  decide

/-- C2 amended: `get_time_invested` performs no validation of `interval` or
`minimum_actions`; a non-positive `minimum_actions` is silently accepted, and
with minimum_actions = 0 every bin of a user's binner span (the empty bins
included) counts as active, so the minutes for a nonempty view are simply the
span length times `interval` — no exception is raised. -/
theorem minutes_at_zero_threshold (interval : Nat) (ts : List Timestamp) (h : ts ≠ []) :
    minutesInvested interval 0 ts
      = (binOfIn interval ts (listMax ts) + 1 - binOfIn interval ts (listMin ts))
          * interval := by
  rw [minutesInvested, if_neg (by simpa [List.isEmpty_iff] using h)]
  congr 1
  have hall : ∀ b ∈ spanBins interval ts, decide (0 ≤ countBin interval ts b) = true :=
    fun b _ => decide_eq_true (Nat.zero_le _)
  rw [List.countP_eq_length.mpr hall, spanBins, List.length_range']

/-- Witness for the amended C2 at interval 1 and timestamps 0, 30, 120:
3 span bins, 3 minutes. -/
theorem minutes_at_zero_threshold_witness :
    ([0, 30, 120] : List Timestamp) ≠ [] ∧
    minutesInvested 1 0 [0, 30, 120]
      = (binOfIn 1 [0, 30, 120] (listMax [0, 30, 120]) + 1
          - binOfIn 1 [0, 30, 120] (listMin [0, 30, 120])) * 1 :=
  ⟨by decide, minutes_at_zero_threshold 1 [0, 30, 120] (by decide)⟩

/-- C3 counterexample: one creation timestamp at second 0, minimum_actions 1.
With interval i1 = 1 the user's reported minutes (total and creation) are 1;
with the larger interval i2 = 2 they are 2 — increasing the bin width
increased the per-user minute count, because the lone active bin is worth
`interval` minutes. -/
theorem minutes_increase_with_interval :
    get_time_invested [(1, 0)] [] [] 1 1 = [⟨1, 1, 1, 0, 0⟩] ∧
    get_time_invested [(1, 0)] [] [] 2 1 = [⟨1, 2, 2, 0, 0⟩] := by
  decide

/-- C3 amended: with minimum_actions = 1 and `i1` dividing `i2`, coarsening
the bins cannot increase the number of active bins, so each user's reported
minute counts satisfy the cross-multiplied monotonicity
`minutes_{i2} * i1 ≤ minutes_{i1} * i2` in every view; the raw minute counts
themselves are not monotone in the interval (see the counterexample). -/
theorem active_bins_antitone_under_dvd (c e r : List Record) (i1 i2 : Nat)
    (h1 : 0 < i1) (hd : i1 ∣ i2) (row1 row2 : TimeRow)
    (hr1 : row1 ∈ get_time_invested c e r i1 1)
    (hr2 : row2 ∈ get_time_invested c e r i2 1)
    (huser : row2.user = row1.user) :
    row2.total * i1 ≤ row1.total * i2 ∧
    row2.creation * i1 ≤ row1.creation * i2 ∧
    row2.edition * i1 ≤ row1.edition * i2 ∧
    row2.review * i1 ≤ row1.review * i2 := by
  rcases mem_get_time_invested.mp hr1 with ⟨u1, _, rfl⟩
  rcases mem_get_time_invested.mp hr2 with ⟨u2, _, rfl⟩
  have hu : u2 = u1 := huser
  subst hu
  exact ⟨minutesInvested_dvd_le i1 i2 hd _, minutesInvested_dvd_le i1 i2 hd _,
    minutesInvested_dvd_le i1 i2 hd _, minutesInvested_dvd_le i1 i2 hd _⟩

/-- Witness for the amended C3: i1 = 1, i2 = 2 on a single timestamp:
2 * 1 ≤ 1 * 2. -/
theorem active_bins_antitone_under_dvd_witness :
    0 < 1 ∧ (1 : Nat) ∣ 2 ∧
    (⟨1, 2, 2, 0, 0⟩ : TimeRow).total * 1 ≤ (⟨1, 1, 1, 0, 0⟩ : TimeRow).total * 2 :=
  ⟨Nat.zero_lt_one, ⟨2, rfl⟩,
    (active_bins_antitone_under_dvd [(1, 0)] [] [] 1 2 Nat.zero_lt_one ⟨2, rfl⟩
      ⟨1, 1, 1, 0, 0⟩ ⟨1, 2, 2, 0, 0⟩ (by decide) (by decide) rfl).1⟩

/-- C4 counterexample: bin boundaries are NOT anchored to a single origin
shared by all users of a view.  The binner grid is anchored at midnight of the
grouped series' first day, so with interval = 7 (which does not divide 1440
minutes) two users of the same creation view — user 1 first active on day 0,
user 2 first active on day 1 — place the very same timestamp 86500 into bins
with different boundaries (86100 versus 86400): their bins are misaligned by
1440 mod 7 = 5 minutes. -/
theorem bin_origin_depends_on_user :
    assignedBinStart 7 (tsOf [(1, 0), (1, 86500), (2, 86400), (2, 86500)] 1) 86500
      = some 86100 ∧
    assignedBinStart 7 (tsOf [(1, 0), (1, 86500), (2, 86400), (2, 86500)] 2) 86500
      = some 86400 ∧
    (86100 : Nat) ≠ 86400 := by
  decide

/-- C4 amended: the binner origin is midnight of the day of the grouped
series' earliest timestamp — deterministic and stable across calls (the model
is a pure function), but data-dependent per user and per view.  The origin is
effectively shared exactly when the interval divides 1440 minutes (a divisor
of a day, in particular the default interval = 1): then the boundary of the
bin covering any timestamp `t` of any user is the epoch-grid value
`⌊t / width⌋ * width`, independent of the user's data, so all users' bins
align. -/
theorem bin_boundary_shared_when_interval_divides_day (interval : Nat)
    (ts : List Timestamp) (t : Timestamp) (hi : 0 < interval)
    (hd : interval ∣ 1440) (ht : t ∈ ts) :
    assignedBinStart interval ts t
      = some (binOf interval t * binWidth interval) := by
  have hw : 0 < binWidth interval := by
    rw [binWidth]
    omega
  have hA_le : anchor ts ≤ t := anchor_le_of_mem ht
  have hfind : (spanBins interval ts).find?
      (fun b => decide (anchor ts + b * binWidth interval ≤ t) &&
        decide (t < anchor ts + (b + 1) * binWidth interval))
      = some ((t - anchor ts) / binWidth interval) := by
    apply find?_eq_some_of_unique
    · intro x
      rw [Bool.and_eq_true]
      constructor
      · rintro ⟨ha, hb⟩
        have h1 : x * binWidth interval ≤ t - anchor ts :=
          nat_le_sub_of_add_le (of_decide_eq_true ha)
        have h2 : t - anchor ts < (x + 1) * binWidth interval :=
          nat_sub_lt_of_lt_add hA_le (of_decide_eq_true hb)
        exact (Nat.div_eq_of_lt_le h1 h2).symm
      · rintro rfl
        constructor
        · exact decide_eq_true (nat_add_le_of_le_sub hA_le
            (Nat.div_mul_le_self (t - anchor ts) (binWidth interval)))
        · exact decide_eq_true (nat_lt_add_of_sub_lt hA_le
            ((Nat.div_lt_iff_lt_mul hw).mp
              (Nat.lt_succ_self ((t - anchor ts) / binWidth interval))))
    · exact binOfIn_mem_spanBins ht
  rw [assignedBinStart, hfind, Option.map_some']
  congr 1
  obtain ⟨q, hq⟩ : binWidth interval ∣ anchor ts :=
    dvd_dayStart (binWidth_dvd_day hd) (listMin ts)
  have hq_le : q ≤ t / binWidth interval := by
    apply (Nat.le_div_iff_mul_le hw).mpr
    rw [Nat.mul_comm, ← hq]
    exact hA_le
  have hsub_div : (t - binWidth interval * q) / binWidth interval
      = t / binWidth interval - q :=
    Nat.sub_mul_div t (binWidth interval) q (by rw [← hq]; exact hA_le)
  calc anchor ts + (t - anchor ts) / binWidth interval * binWidth interval
      = binWidth interval * q
          + (t / binWidth interval - q) * binWidth interval := by
        rw [hq, hsub_div]
    _ = binOf interval t * binWidth interval := by
        rw [Nat.sub_mul, Nat.mul_comm (binWidth interval) q, binOf]
        exact Nat.add_sub_cancel' (Nat.mul_le_mul_right _ hq_le)

/-- Witness for the amended C4 at the default interval 1 (which divides 1440):
timestamp 120 of the user acting at 0, 30, 120 gets the epoch-grid bin
boundary 120. -/
theorem bin_boundary_shared_when_interval_divides_day_witness :
    0 < 1 ∧ (1 : Nat) ∣ 1440 ∧ (120 : Timestamp) ∈ ([0, 30, 120] : List Timestamp) ∧
    assignedBinStart 1 [0, 30, 120] 120 = some 120 :=
  ⟨Nat.zero_lt_one, ⟨1440, rfl⟩, by decide,
    bin_boundary_shared_when_interval_divides_day 1 [0, 30, 120] 120
      Nat.zero_lt_one ⟨1440, rfl⟩ (by decide)⟩

/-- C5 counterexample: a category can exceed `total`.  The total view and a
category view of the same user anchor at midnights of different first days.
With interval = 7 and minimum_actions = 1, user 1 edits at day-0 00:00
(second 0) and creates at day-1 00:06, 00:08, 00:20, 00:22 (seconds 86760,
86880, 87600, 87720).  The creation binner, anchored at day-1 midnight, puts
the four creations into 4 distinct bins (creation = 28 minutes); the total
binner, anchored at day-0 midnight, merges them pairwise (bins 206 and 208 of
the 7-minute grid) for 3 active bins (total = 21 minutes): creation > total. -/
theorem category_exceeds_total :
    get_time_invested [(1, 86760), (1, 86880), (1, 87600), (1, 87720)] [(1, 0)] [] 7 1
      = [⟨1, 21, 28, 7, 0⟩] ∧
    ¬ ((⟨1, 21, 28, 7, 0⟩ : TimeRow).creation ≤ (⟨1, 21, 28, 7, 0⟩ : TimeRow).total) := by
  decide

/-- C5 amended: when the interval divides 1440 minutes (a divisor of a day,
in particular the default interval = 1), the first-day anchors of all four
views lie on a common grid, each category's active bins inject into `total`'s,
and every user's `total` is at least each of the three per-category figures;
for other intervals the anchors can be incommensurable and a category can
exceed `total` (see the counterexample). -/
theorem total_ge_each_category (c e r : List Record) (i m : Nat) (hm : 1 ≤ m)
    (hd : i ∣ 1440) (row : TimeRow) (hrow : row ∈ get_time_invested c e r i m) :
    row.creation ≤ row.total ∧ row.edition ≤ row.total ∧ row.review ≤ row.total := by
  have hw : binWidth i ∣ 86400 := binWidth_dvd_day hd
  rcases mem_get_time_invested.mp hrow with ⟨u, _, rfl⟩
  have hAll : tsOf (c ++ e ++ r) u = tsOf c u ++ tsOf e u ++ tsOf r u := by
    rw [tsOf_append, tsOf_append]
  refine ⟨?_, ?_, ?_⟩
  · show minutesInvested i m (tsOf c u) ≤ minutesInvested i m (tsOf (c ++ e ++ r) u)
    rw [hAll]
    exact minutesInvested_le_of_sublist hm hw
      ((List.sublist_append_left _ _).trans (List.sublist_append_left _ _))
  · show minutesInvested i m (tsOf e u) ≤ minutesInvested i m (tsOf (c ++ e ++ r) u)
    rw [hAll]
    exact minutesInvested_le_of_sublist hm hw
      ((List.sublist_append_right _ _).trans (List.sublist_append_left _ _))
  · show minutesInvested i m (tsOf r u) ≤ minutesInvested i m (tsOf (c ++ e ++ r) u)
    rw [hAll]
    exact minutesInvested_le_of_sublist hm hw (List.sublist_append_right _ _)

/-- Witness for the amended C5 on the spec's example row at interval 1. -/
theorem total_ge_each_category_witness :
    1 ≤ 1 ∧ (1 : Nat) ∣ 1440 ∧
    (⟨7, 2, 2, 0, 0⟩ : TimeRow).creation ≤ (⟨7, 2, 2, 0, 0⟩ : TimeRow).total :=
  ⟨Nat.le_refl 1, ⟨1440, rfl⟩,
    (total_ge_each_category [(7, 0), (7, 30), (7, 120)] [] [] 1 1 (Nat.le_refl 1)
      ⟨1440, rfl⟩ ⟨7, 2, 2, 0, 0⟩ (by decide)).1⟩

/-- C6 amended: the report's rows are sorted by `total` descending.  The rest
of the claim fails: `sort_values('total', ascending=False)` runs an unstable
quicksort whose descending order is a reversed ascending argsort, so users
with identical totals appear in reverse of their first-appearance (identifier)
order — there is no documented stable secondary order (see the
counterexample). -/
theorem report_sorted_by_total_desc (c e r : List Record) (i m : Nat) :
    (get_time_invested c e r i m).Pairwise (fun a b => b.total ≤ a.total) :=
  sortValuesDesc_pairwise _ _

/-- C6 counterexample: users 1 and 2 with identical single timestamps tie on
total = 1.  The input (and user-identifier) order is 1 before 2, yet the
report lists user 2 first: ties are broken by reversing the ascending argsort,
not by the original user order nor any documented secondary key. -/
theorem equal_totals_reverse_order :
    get_time_invested [(1, 0), (2, 0)] [] [] 1 1
      = [⟨2, 1, 1, 0, 0⟩, ⟨1, 1, 1, 0, 0⟩] := by
  decide

/-- C7: the report has exactly one row per user having at least one action in
any category (row count 1 for members of the concatenated input's user set,
0 otherwise), and a user absent from one category's input keeps 0 minutes for
that category instead of being dropped. -/
theorem one_row_per_active_user (c e r : List Record) (i m : Nat) (u : UserId) :
    ((get_time_invested c e r i m).countP (fun row => row.user == u)
      = if u ∈ (c ++ e ++ r).map (fun p => p.1) then 1 else 0) ∧
    (∀ row ∈ get_time_invested c e r i m,
      (row.user ∉ c.map (fun p => p.1) → row.creation = 0) ∧
      (row.user ∉ e.map (fun p => p.1) → row.edition = 0) ∧
      (row.user ∉ r.map (fun p => p.1) → row.review = 0)) := by
  constructor
  · rw [get_time_invested, (sortValuesDesc_perm _ _).countP_eq, List.countP_map]
    by_cases hu : u ∈ (c ++ e ++ r).map (fun p => p.1)
    · rw [if_pos hu]
      exact List.count_eq_one_of_mem (unique_nodup _) (mem_unique.mpr hu)
    · rw [if_neg hu]
      exact List.count_eq_zero.mpr (fun hc => hu (mem_unique.mp hc))
  · intro row hrow
    rcases mem_get_time_invested.mp hrow with ⟨u', _, rfl⟩
    refine ⟨?_, ?_, ?_⟩ <;> intro habs
    · show minutesInvested i m (tsOf c u') = 0
      have habs' : u' ∉ c.map (fun p => p.1) := habs
      rw [tsOf_eq_nil_of_not_mem habs']
      rfl
    · show minutesInvested i m (tsOf e u') = 0
      have habs' : u' ∉ e.map (fun p => p.1) := habs
      rw [tsOf_eq_nil_of_not_mem habs']
      rfl
    · show minutesInvested i m (tsOf r u') = 0
      have habs' : u' ∉ r.map (fun p => p.1) := habs
      rw [tsOf_eq_nil_of_not_mem habs']
      rfl

/-- Witness for C7: user 7 creates one node and reviews nothing; the report
keeps the row with edition = review = 0. -/
theorem one_row_per_active_user_witness :
    (⟨7, 1, 1, 0, 0⟩ : TimeRow) ∈ get_time_invested [(7, 0)] [] [] 1 1 ∧
    ((⟨7, 1, 1, 0, 0⟩ : TimeRow).user ∉ ([] : List Record).map (fun p => p.1)) ∧
    (⟨7, 1, 1, 0, 0⟩ : TimeRow).edition = 0 :=
  ⟨by decide, by decide,
    ((one_row_per_active_user [(7, 0)] [] [] 1 1 7).2 ⟨7, 1, 1, 0, 0⟩ (by decide)).2.1
      (by decide)⟩

/-- C8: an empty record collection produces an empty report, and the
computation (a total function in this model, with no raise in the source path
once the inputs are materialised) throws nothing. -/
theorem empty_records_empty_report (i m : Nat) :
    get_time_invested [] [] [] i m = [] := rfl

/-- C9: `get_time_invested` is deterministic — a pure function of its inputs —
so two calls with identical records and identical parameters return identical
reports, row order and values included. -/
theorem time_invested_deterministic (c1 e1 r1 c2 e2 r2 : List Record)
    (i1 m1 i2 m2 : Nat) (hc : c1 = c2) (he : e1 = e2) (hr : r1 = r2)
    (hi : i1 = i2) (hm : m1 = m2) :
    get_time_invested c1 e1 r1 i1 m1 = get_time_invested c2 e2 r2 i2 m2 := by
  rw [hc, he, hr, hi, hm]

/-- Witness for C9 at a concrete input. -/
theorem time_invested_deterministic_witness :
    ([(1, 0)] : List Record) = [(1, 0)] ∧
    get_time_invested [(1, 0)] [] [] 1 1 = get_time_invested [(1, 0)] [] [] 1 1 :=
  ⟨rfl, time_invested_deterministic [(1, 0)] [] [] [(1, 0)] [] [] 1 1 1 1
    rfl rfl rfl rfl rfl⟩

/-- C10: `get_user_contributions` returns exactly one row per user appearing
in any of the three contributor maps (row count 1 for members of the union of
the key sets, 0 otherwise), fills 0 for each map where the user is absent, and
sorts the rows by node count descending. -/
theorem user_contributions_spec (node pre post : List (UserId × Nat)) (u : UserId) :
    ((get_user_contributions node pre post).countP (fun row => row.user == u)
      = if u ∈ (node.map (fun p => p.1)) ++ (pre.map (fun p => p.1))
          ++ (post.map (fun p => p.1)) then 1 else 0) ∧
    (∀ row ∈ get_user_contributions node pre post,
      (row.user ∉ node.map (fun p => p.1) → row.nodes = 0) ∧
      (row.user ∉ pre.map (fun p => p.1) → row.presynapses = 0) ∧
      (row.user ∉ post.map (fun p => p.1) → row.postsynapses = 0)) ∧
    (get_user_contributions node pre post).Pairwise (fun a b => b.nodes ≤ a.nodes) := by
  refine ⟨?_, ?_, sortValuesDesc_pairwise _ _⟩
  · rw [get_user_contributions, (sortValuesDesc_perm _ _).countP_eq, List.countP_map]
    by_cases hu : u ∈ (node.map (fun p => p.1)) ++ (pre.map (fun p => p.1))
        ++ (post.map (fun p => p.1))
    · rw [if_pos hu]
      exact List.count_eq_one_of_mem (unique_nodup _) (mem_unique.mpr hu)
    · rw [if_neg hu]
      exact List.count_eq_zero.mpr (fun hc => hu (mem_unique.mp hc))
  · intro row hrow
    rcases mem_get_user_contributions.mp hrow with ⟨u', _, rfl⟩
    refine ⟨?_, ?_, ?_⟩ <;> intro habs
    · show (List.lookup u' node).getD 0 = 0
      have habs' : u' ∉ node.map (fun p => p.1) := habs
      rw [lookup_eq_none_of_not_mem habs']
      rfl
    · show (List.lookup u' pre).getD 0 = 0
      have habs' : u' ∉ pre.map (fun p => p.1) := habs
      rw [lookup_eq_none_of_not_mem habs']
      rfl
    · show (List.lookup u' post).getD 0 = 0
      have habs' : u' ∉ post.map (fun p => p.1) := habs
      rw [lookup_eq_none_of_not_mem habs']
      rfl

/-- Witness for C10: user 6 contributes nodes and presynapses but no
postsynapses and keeps a zero-filled row. -/
theorem user_contributions_spec_witness :
    (⟨6, 3, 1, 0⟩ : ContribRow) ∈ get_user_contributions [(5, 10), (6, 3)] [(6, 1)] [] ∧
    ((⟨6, 3, 1, 0⟩ : ContribRow).user ∉ ([] : List (UserId × Nat)).map (fun p => p.1)) ∧
    (⟨6, 3, 1, 0⟩ : ContribRow).postsynapses = 0 :=
  ⟨by decide, by decide,
    ((user_contributions_spec [(5, 10), (6, 3)] [(6, 1)] [] 6).2.1 ⟨6, 3, 1, 0⟩
      (by decide)).2.2 (by decide)⟩

end UserStats
